import Mathlib

/-!
Shallow embedding of the two pipelines of the collectZ repository
(`bluraySearch.py` and `blurayInfo.py`) and proofs about them.

Python strings are modelled as lists of characters (`Str`), Python lists as
Lean lists, Python dicts as insertion-ordered association lists in which a
repeated key updates the stored value in place, and failing index accesses
(`IndexError`) as `Option`-valued computations returning `none`.
-/

namespace CollectZ

/-- Python strings are modelled as lists of characters. -/
abbrev Str := List Char

/-- Test whether the first argument is an initial segment of the second. -/
def leadsWith : Str → Str → Bool
  | [], _ => true
  | _ :: _, [] => false
  | p :: ps, c :: cs => p == c && leadsWith ps cs

/-- Locate the first occurrence of the separator `sep` in `s`: returns
`some (before, after)` where `before ++ sep ++ after = s` splits `s` at the
leftmost occurrence, and `none` when `sep` does not occur (or is empty). -/
def splitFirst (sep : Str) : Str → Option (Str × Str)
  | [] => none
  | c :: cs =>
    if sep ≠ [] ∧ leadsWith sep (c :: cs) then some ([], (c :: cs).drop sep.length)
    else
      match splitFirst sep cs with
      | none => none
      | some (b, a) => some (c :: b, a)

/-- Fuelled worker for `pySplit`; `fuel ≥ s.length` always suffices, as each
recursive call strictly shrinks the string being split. -/
def pySplitAux (sep : Str) : Nat → Str → List Str
  | 0, s => [s]
  | fuel + 1, s =>
    match splitFirst sep s with
    | none => [s]
    | some (b, a) => b :: pySplitAux sep fuel a

/-- Python `s.split(sep)` for a non-empty separator: the fragments of `s`
between consecutive non-overlapping occurrences of `sep`, scanned from the
left. Always returns a non-empty list; `pySplit sep s = [s]` when `sep` does
not occur in `s`. -/
def pySplit (sep s : Str) : List Str :=
  pySplitAux sep s.length s

/-- Python `s.replace(old, new)` for a non-empty `old`: equivalently,
`new.join(s.split(old))`. -/
def pyReplace (old new s : Str) : Str :=
  List.intercalate new (pySplit old s)

/-- Python `list.insert(i, x)`: inserts `x` before position `i`, appending at
the end when `i` exceeds the current length. -/
def pyInsert {α : Type} (l : List α) (i : Nat) (x : α) : List α :=
  l.take i ++ x :: l.drop i

/-- Assignment `d[k] = v` on a Python dict modelled as an insertion-ordered
association list: an existing key keeps its position and gets the new value,
a new key is appended at the end. -/
def dictInsert {β : Type} (k : Str) (v : β) : List (Str × β) → List (Str × β)
  | [] => [(k, v)]
  | (k', v') :: rest =>
    if k = k' then (k', v) :: rest else (k', v') :: dictInsert k v rest

/-- A Python dict literal `{k1: v1, ..., kn: vn}`: the key/value pairs are
inserted left to right, so a repeated key keeps its first position and its
last value. -/
def pyDict {β : Type} (l : List (Str × β)) : List (Str × β) :=
  l.foldl (fun d kv => dictInsert kv.1 kv.2 d) []

/-- The characters Python's `re` treats as metacharacters outside character
classes. A pattern avoiding all of them is matched purely literally by
`re.search`; a pattern avoiding all of them except `'.'` is matched by
literal characters plus the any-character-but-newline wildcard. -/
def reMeta : List Char :=
  ['.', '^', '$', '*', '+', '?', '\x7b', '\x7d', '[', ']', '\\', '|', '(', ')']

/-- Model of Python's regular-expression matching at a fixed position, for the
fragment of patterns consisting of literal characters and the `'.'`
wildcard (which matches any character except a newline). It treats every
character other than `'.'` as a literal, so it is faithful to `re.search`
exactly on patterns containing no metacharacter from `reMeta` besides
possibly `'.'`; every theorem below evaluates it only on such patterns. -/
def reMatchHere : Str → Str → Bool
  | [], _ => true
  | _ :: _, [] => false
  | p :: ps, c :: cs => (if p = '.' then c != '\n' else p == c) && reMatchHere ps cs

/-- Model of Python's `re.search(pat, s)` for the literal-plus-wildcard
pattern fragment: scans for the leftmost position of `s` at which the
pattern matches. -/
def reSearch (pat : Str) : Str → Bool
  | [] => reMatchHere pat []
  | c :: cs => reMatchHere pat (c :: cs) || reSearch pat cs

/-- ASCII lower-casing of a modelled string, character by character. -/
def lowerStr (s : Str) : Str := s.map Char.toLower

/-- Model of `re.search(pat, s, re.IGNORECASE)` (ASCII case folding): both the
pattern and the subject are lower-cased before matching, which is exact for
the literal-plus-wildcard pattern fragment. Source: `bluraySearch.py`
line 110. -/
def reSearchIC (pat s : Str) : Bool :=
  reSearch (lowerStr pat) (lowerStr s)

/-- Substring containment, used to state the spec's notion of the keyword
occurring inside a title. -/
def containsSub (needle hay : Str) : Prop :=
  ∃ pre post, pre ++ needle ++ post = hay

/-- Boolean substring search deciding `containsSub`. -/
def subOf (needle : Str) : Str → Bool
  | [] => leadsWith needle []
  | c :: cs => leadsWith needle (c :: cs) || subOf needle cs

/-- Case-insensitive substring containment: the needle occurs inside the hay
after ASCII lower-casing both. -/
def substrIC (needle hay : Str) : Prop :=
  containsSub (lowerStr needle) (lowerStr hay)

/-- One extracted search entry. Source: the dict values built in
`bluraySearch.py` lines 99 and 101. -/
structure SearchResult where
  title : Str
  categoryID : Str
  parentID : Str
  gproductID : Str
  productID : Str
  productURL : Str
  productCover : Str
deriving DecidableEq

/-- One result card of the search page, i.e. one `div` with the inline-style
marker: whether it holds a link (`div.a`), whether that link holds an image
(`div.a.img`), and the link's data attributes. -/
structure Card where
  hasA : Bool
  hasImg : Bool
  title : Str
  dataCategoryID : Str
  dataGlobalParentID : Str
  dataGlobalProductID : Str
  dataProductID : Str
  href : Str
  imgSrc : Str
deriving DecidableEq

/-- The search entry read off one card: with an embedded image the cover URL
is the image's `src`, otherwise the empty string. Source: `bluraySearch.py`
lines 98-101. -/
def cardEntry (c : Card) : SearchResult :=
  { title := c.title
    categoryID := c.dataCategoryID
    parentID := c.dataGlobalParentID
    gproductID := c.dataGlobalProductID
    productID := c.dataProductID
    productURL := c.href
    productCover := if c.hasImg then c.imgSrc else [] }

/-- The search extractor: walks the result cards in document order and, for
each card holding a link, assigns `movies[data-productid] = entry`. Source:
`bluraySearch.py` lines 94-101. -/
def extractMovies (cards : List Card) : List (Str × SearchResult) :=
  cards.foldl (fun d c => if c.hasA then dictInsert c.dataProductID (cardEntry c) d else d) []

/-- One block of the search tool's output: the `Results:` header, the
no-results message, or one printed entry block. -/
inductive OutLine
  | header
  | noResults
  | entry (m : SearchResult)
deriving DecidableEq

/-- The search tool's printed output: the header, then either the no-results
message (when the extracted dict is empty) or one entry block per extracted
entry whose title matches the keyword case-insensitively. Source:
`bluraySearch.py` lines 105-115. -/
def searchOutput (searchInput : Str) (cards : List Card) : List OutLine :=
  let movies := extractMovies cards
  OutLine.header ::
    (if movies = [] then [OutLine.noResults]
     else (movies.filter fun kv => reSearchIC searchInput kv.2.title).map
       fun kv => OutLine.entry kv.2)

/-- The entries the search filter lets through to printing. Source:
`bluraySearch.py` lines 109-115. -/
def searchPrinted (searchInput : Str) (cards : List Card) : List SearchResult :=
  ((extractMovies cards).filter fun kv => reSearchIC searchInput kv.2.title).map
    fun kv => kv.2

/-- Base URL of the detail pages. Source: `blurayInfo.py` line 9. -/
def baseMoviesURL : Str := "https://www.blu-ray.com/movies/".toList

/-- Slug cleaning of the user-supplied title:
`titleInput.split(' (')[0].replace(' ', '-').replace('+', 'and')`. Source:
`blurayInfo.py` line 12. -/
def titleClean (titleInput : Str) : Str :=
  pyReplace ['+'] "and".toList (pyReplace [' '] ['-'] ((pySplit " (".toList titleInput).headD []))

/-- The detail-page URL:
`baseURL + titleClean + '-Blu-ray/' + str(titleID) + '/'`. Source:
`blurayInfo.py` line 15. -/
def titleURL (titleInput titleID : Str) : Str :=
  baseMoviesURL ++ titleClean titleInput ++ "-Blu-ray/".toList ++ titleID ++ ['/']

/-- The positional field assembly of `blurayInfo.py` lines 35-43: prepend an
empty studio when the subheading produced exactly 4 parts, then insert the
cover-art URL, purchase link, IMDB URL, trailer source and the echoed title
at positions 5 to 9. -/
def assembleTitleInfo (subheading : List Str) (coverArt buyLink imdbLink trailerSrc titleInput : Str) :
    List Str :=
  let t := if subheading.length = 4 then pyInsert subheading 0 [] else subheading
  pyInsert (pyInsert (pyInsert (pyInsert (pyInsert t 5 coverArt) 6 buyLink) 7 imdbLink) 8 trailerSrc)
    9 titleInput

/-- The assembled release record. Source: class `release`, `blurayInfo.py`
lines 46-58. -/
structure Release where
  studio : Str
  year : Str
  length : Str
  rating : Str
  date : Str
  coverArt : Str
  amazon : Str
  imdbURL : Str
  imdbID : Str
  trailer : Str
  title : Str
deriving DecidableEq

/-- The `release.__init__` constructor reading fixed positions 0-9 of the
assembled list and deriving `imdbID = dictionary[7].split('/')[4]`; a missing
position or a too-short IMDB URL raises `IndexError`, modelled as `none`.
Source: `blurayInfo.py` lines 46-58. -/
def releaseOfList (dictionary : List Str) : Option Release := do
  let studio ← dictionary[0]?
  let year ← dictionary[1]?
  let len ← dictionary[2]?
  let rating ← dictionary[3]?
  let date ← dictionary[4]?
  let coverArt ← dictionary[5]?
  let amazon ← dictionary[6]?
  let imdbURL ← dictionary[7]?
  let imdbID ← (pySplit ['/'] imdbURL)[4]?
  let trailer ← dictionary[8]?
  let title ← dictionary[9]?
  pure
    { studio := studio, year := year, length := len, rating := rating, date := date
      coverArt := coverArt, amazon := amazon, imdbURL := imdbURL, imdbID := imdbID
      trailer := trailer, title := title }

/-- The whole detail-side record assembly, from the subheading line (split on
the literal separator `" | "`), the four extracted URLs and the echoed
user-supplied title. Source: `blurayInfo.py` lines 22 and 35-64. -/
def detailRecord (subheadingLine coverArt buyLink imdbLink trailerSrc titleInput : Str) :
    Option Release :=
  releaseOfList
    (assembleTitleInfo (pySplit " | ".toList subheadingLine) coverArt buyLink imdbLink trailerSrc
      titleInput)

/-- One key/value pair of the ratings dict: Python evaluates `td[i].text` then
`td[j].text`; a missing cell raises `IndexError`, modelled as `none`. -/
def pairAt (td : List Str) (i j : Nat) : Option (Str × Str) := do
  let k ← td[i]?
  let v ← td[j]?
  pure (k, v)

/-- The ratings-table extractor: the flat cell sequence's first cell selects
the variant ("3D": 5 pairs up to cell 14, "Video 4k": 4 pairs up to cell 11,
anything else: 3 pairs up to cell 8), and the dict literal is built from the
fixed offset pairs. Source: `blurayInfo.py` lines 27-32. -/
def ratings (td : List Str) : Option (List (Str × Str)) := do
  let c0 ← td[0]?
  if c0 = "3D".toList then
    let p1 ← pairAt td 0 2
    let p2 ← pairAt td 3 5
    let p3 ← pairAt td 6 8
    let p4 ← pairAt td 9 11
    let p5 ← pairAt td 12 14
    pure (pyDict [p1, p2, p3, p4, p5])
  else if c0 = "Video 4k".toList then
    let p1 ← pairAt td 0 2
    let p2 ← pairAt td 3 5
    let p3 ← pairAt td 6 8
    let p4 ← pairAt td 9 11
    pure (pyDict [p1, p2, p3, p4])
  else
    let p1 ← pairAt td 0 2
    let p2 ← pairAt td 3 5
    let p3 ← pairAt td 6 8
    pure (pyDict [p1, p2, p3])

/-- The number of cells the selected ratings variant reads up to: 15 for the
"3D" variant, 12 for "Video 4k", 9 otherwise (the highest offset read plus
one). -/
def requiredCells (td : List Str) : Nat :=
  if td[0]? = some "3D".toList then 15
  else if td[0]? = some "Video 4k".toList then 12
  else 9

/-- Spec-side description of the slug cleaning's first step, following the
spec's words: drop any suffix beginning with the first occurrence of `" ("`.
Stated independently of `pySplit` so that the code's
`titleInput.split(' (')[0]` can be compared against it. -/
def dropToParen : Str → Str
  | [] => []
  | [c] => [c]
  | c :: d :: rest => if c = ' ' ∧ d = '(' then [] else c :: dropToParen (d :: rest)

/-! Lemmas about the string primitives. -/

theorem leadsWith_iff (p s : Str) : leadsWith p s = true ↔ ∃ t, p ++ t = s := by
  induction p generalizing s with
  | nil => simp [leadsWith]
  | cons x xs ih =>
    cases s with
    | nil => simp [leadsWith]
    | cons c cs =>
      simp only [leadsWith, Bool.and_eq_true, beq_iff_eq, ih, List.cons_append, List.cons.injEq]
      constructor
      · rintro ⟨rfl, t, rfl⟩
        exact ⟨t, rfl, rfl⟩
      · rintro ⟨t, rfl, rfl⟩
        exact ⟨rfl, t, rfl⟩

theorem splitFirst_eq {sep s b a : Str} (h : splitFirst sep s = some (b, a)) :
    b ++ sep ++ a = s ∧ sep ≠ [] := by
  induction s generalizing b a with
  | nil => simp [splitFirst] at h
  | cons c cs ih =>
    rw [splitFirst] at h
    split at h
    · rename_i hcond
      obtain ⟨hne, hpre⟩ := hcond
      obtain ⟨t, ht⟩ := (leadsWith_iff _ _).mp hpre
      obtain ⟨rfl, rfl⟩ : b = [] ∧ a = (c :: cs).drop sep.length := by
        simpa [eq_comm] using h
      refine ⟨?_, hne⟩
      rw [← ht]
      simp [List.drop_left']
    · cases hrec : splitFirst sep cs with
      | none => rw [hrec] at h; cases h
      | some pr =>
        obtain ⟨b', a'⟩ := pr
        rw [hrec] at h
        obtain ⟨hb, ha⟩ : c :: b' = b ∧ a' = a := by simpa [eq_comm] using h
        obtain ⟨h1, h2⟩ := ih hrec
        subst hb ha
        simp only [List.cons_append]
        exact ⟨by rw [h1], h2⟩

theorem splitFirst_length {sep s b a : Str} (h : splitFirst sep s = some (b, a)) :
    a.length < s.length := by
  obtain ⟨heq, hne⟩ := splitFirst_eq h
  have hsep : 0 < sep.length := List.length_pos.mpr hne
  have hlen : b.length + (sep.length + a.length) = s.length := by
    simpa [List.length_append] using congrArg List.length heq
  omega

theorem pySplitAux_congr {sep : Str} :
    ∀ (fuel : Nat) {fuel' : Nat} {s : Str}, s.length ≤ fuel → s.length ≤ fuel' →
      pySplitAux sep fuel s = pySplitAux sep fuel' s := by
  intro fuel
  induction fuel with
  | zero =>
    intro fuel' s hs hs'
    have : s = [] := List.length_eq_zero.mp (by omega)
    subst this
    cases fuel' with
    | zero => rfl
    | succ m => rfl
  | succ n ih =>
    intro fuel' s hs hs'
    cases fuel' with
    | zero =>
      have : s = [] := List.length_eq_zero.mp (by omega)
      subst this
      rfl
    | succ m =>
      rw [pySplitAux, pySplitAux]
      cases hsf : splitFirst sep s with
      | none => rfl
      | some pr =>
        obtain ⟨b, a⟩ := pr
        simp only
        have hlt : a.length < s.length := splitFirst_length hsf
        exact congrArg (b :: ·) (ih (by omega) (by omega))

theorem pySplit_unfold (sep s : Str) :
    pySplit sep s =
      match splitFirst sep s with
      | none => [s]
      | some (b, a) => b :: pySplit sep a := by
  cases hsf : splitFirst sep s with
  | none =>
    cases s with
    | nil => rfl
    | cons c cs => simp only [pySplit, List.length_cons, pySplitAux, hsf]
  | some pr =>
    obtain ⟨b, a⟩ := pr
    have hlt : a.length < s.length := splitFirst_length hsf
    cases s with
    | nil => simp [splitFirst] at hsf
    | cons c cs =>
      simp only [pySplit, List.length_cons, pySplitAux, hsf]
      have hle : a.length ≤ cs.length := by
        simp only [List.length_cons] at hlt
        omega
      exact congrArg (b :: ·) (pySplitAux_congr _ hle le_rfl)

theorem subOf_iff (needle hay : Str) : subOf needle hay = true ↔ containsSub needle hay := by
  induction hay with
  | nil =>
    simp only [subOf, leadsWith_iff, containsSub]
    constructor
    · rintro ⟨t, ht⟩
      exact ⟨[], t, ht⟩
    · rintro ⟨pre, post, hs⟩
      obtain ⟨h1, hpost⟩ := List.append_eq_nil.mp hs
      obtain ⟨hpre, hneedle⟩ := List.append_eq_nil.mp h1
      exact ⟨[], by simp [hneedle]⟩
  | cons c cs ih =>
    simp only [subOf, Bool.or_eq_true, leadsWith_iff, ih, containsSub]
    constructor
    · rintro (⟨t, ht⟩ | ⟨pre, post, hs⟩)
      · exact ⟨[], t, ht⟩
      · exact ⟨c :: pre, post, by simp [hs]⟩
    · rintro ⟨pre, post, hs⟩
      cases pre with
      | nil => exact Or.inl ⟨post, by simpa using hs⟩
      | cons x xs =>
        right
        refine ⟨xs, post, ?_⟩
        have : x = c ∧ xs ++ needle ++ post = cs := by simpa using hs
        simp [this.2]

instance (needle hay : Str) : Decidable (containsSub needle hay) :=
  decidable_of_iff (subOf needle hay = true) (subOf_iff needle hay)

theorem toLower_ne_dot {c : Char} (h : c ≠ '.') : c.toLower ≠ '.' := by
  intro hc
  unfold Char.toLower at hc
  dsimp only at hc
  split at hc
  · rename_i hcond
    simp only [ge_iff_le, decide_eq_true_eq] at hcond
    have hv : (c.toNat + 32).isValidChar := by
      left
      omega
    have ht : (Char.ofNat (c.toNat + 32)).toNat = c.toNat + 32 := by
      unfold Char.ofNat
      rw [dif_pos hv]
      rfl
    rw [hc] at ht
    have hd : ('.').toNat = 46 := rfl
    omega
  · exact h hc

theorem reMatchHere_eq_leadsWith {p : Str} (hp : '.' ∉ p) (s : Str) :
    reMatchHere p s = leadsWith p s := by
  induction p generalizing s with
  | nil => cases s <;> rfl
  | cons x xs ih =>
    cases s with
    | nil => rfl
    | cons c cs =>
      have hx : x ≠ '.' := fun h => hp (by simp [h])
      have hxs : '.' ∉ xs := fun h => hp (by simp [h])
      simp only [reMatchHere, leadsWith, if_neg hx, ih hxs]

theorem reSearch_eq_subOf {p : Str} (hp : '.' ∉ p) (s : Str) :
    reSearch p s = subOf p s := by
  induction s with
  | nil => simp [reSearch, subOf, reMatchHere_eq_leadsWith hp]
  | cons c cs ih => simp [reSearch, subOf, reMatchHere_eq_leadsWith hp, ih]

theorem reSearchIC_substr {kw : Str} (hkw : '.' ∉ kw) {t : Str}
    (h : reSearchIC kw t = true) : substrIC kw t := by
  have hlow : '.' ∉ lowerStr kw := by
    intro hmem
    obtain ⟨c, hc, hcl⟩ := List.mem_map.mp hmem
    exact toLower_ne_dot (fun hcd => hkw (hcd ▸ hc)) hcl
  rw [reSearchIC, reSearch_eq_subOf hlow] at h
  exact (subOf_iff _ _).mp h

/-! Lemmas about dict building, positional insertion and record assembly. -/

theorem dictInsert_notMem {β : Type} {k : Str} {v : β} {d : List (Str × β)}
    (h : k ∉ d.map Prod.fst) : dictInsert k v d = d ++ [(k, v)] := by
  induction d with
  | nil => rfl
  | cons kv rest ih =>
    obtain ⟨k', v'⟩ := kv
    have hk : k ≠ k' := by
      intro hkk
      apply h
      subst hkk
      simp only [List.map_cons]
      exact List.mem_cons_self _ _
    simp only [dictInsert, if_neg hk, List.cons_append, List.cons.injEq, true_and]
    refine ih fun hm => h ?_
    simp only [List.map_cons]
    exact List.mem_cons_of_mem _ hm

theorem pyDict_of_nodup {β : Type} {l : List (Str × β)} (h : (l.map Prod.fst).Nodup) :
    pyDict l = l := by
  suffices haux : ∀ (l acc : List (Str × β)), ((acc ++ l).map Prod.fst).Nodup →
      l.foldl (fun d kv => dictInsert kv.1 kv.2 d) acc = acc ++ l by
    simpa using haux l [] (by simpa using h)
  intro l
  induction l with
  | nil => simp
  | cons kv rest ih =>
    intro acc hacc
    obtain ⟨k, v⟩ := kv
    have hnotin : k ∉ acc.map Prod.fst := by
      intro hm
      have : ¬ ((acc ++ (k, v) :: rest).map Prod.fst).Nodup := by
        simp only [List.map_append, List.nodup_append]
        intro hn
        refine hn.2.2 hm ?_
        simp only [List.map_cons]
        exact List.mem_cons_self _ _
      exact this hacc
    simp only [List.foldl_cons, dictInsert_notMem hnotin]
    have : acc ++ (k, v) :: rest = (acc ++ [(k, v)]) ++ rest := by simp
    rw [this] at hacc ⊢
    exact ih (acc ++ [(k, v)]) hacc

theorem pyInsert_of_length_eq {α : Type} {a : List α} {n : Nat} (h : a.length = n)
    (d : List α) (x : α) : pyInsert (a ++ d) n x = a ++ x :: d := by
  unfold pyInsert
  rw [List.take_left' h, List.drop_left' h]

theorem pyInsert_getElem_self {α : Type} (l : List α) (n : Nat) (x : α) :
    (pyInsert l n x)[n]? = if n ≤ l.length then some x else none := by
  unfold pyInsert
  by_cases h : n ≤ l.length
  · rw [if_pos h]
    have hlen : (l.take n).length = n := by
      simp [List.length_take]
      omega
    rw [List.getElem?_append_right (by omega), hlen]
    simp
  · rw [if_neg h]
    have ht : l.take n = l := List.take_of_length_le (by omega)
    have hd : l.drop n = [] := List.drop_eq_nil_of_le (by omega)
    rw [ht, hd]
    exact List.getElem?_eq_none (by simp; omega)

theorem releaseOfList_cons (s y le ra da co am im tr ti : Str) (rest : List Str) {iid : Str}
    (h : (pySplit ['/'] im)[4]? = some iid) :
    releaseOfList (s :: y :: le :: ra :: da :: co :: am :: im :: tr :: ti :: rest) =
      some
        { studio := s, year := y, length := le, rating := ra, date := da, coverArt := co
          amazon := am, imdbURL := im, imdbID := iid, trailer := tr, title := ti } := by
  unfold releaseOfList
  simp [h]

theorem releaseOfList_some {l : List Str} {r : Release} (h : releaseOfList l = some r) :
    l[0]? = some r.studio ∧ l[1]? = some r.year ∧ l[2]? = some r.length ∧
      l[3]? = some r.rating ∧ l[4]? = some r.date ∧ l[5]? = some r.coverArt ∧
      l[6]? = some r.amazon ∧ l[7]? = some r.imdbURL ∧
      (pySplit ['/'] r.imdbURL)[4]? = some r.imdbID ∧ l[8]? = some r.trailer ∧
      l[9]? = some r.title := by
  unfold releaseOfList at h
  simp only [bind, Option.bind_eq_some, Option.pure_def, Option.some.injEq] at h
  obtain ⟨s, hs, y, hy, le, hle, ra, hra, da, hda, co, hco, am, ham, im, him, iid, hiid, tr, htr,
    ti, hti, hr⟩ := h
  subst hr
  simp_all

theorem length_eq_four {α : Type} {l : List α} (h : l.length = 4) :
    ∃ a b c d, l = [a, b, c, d] := by
  match l, h with
  | [a, b, c, d], _ => exact ⟨a, b, c, d, rfl⟩

theorem length_eq_five {α : Type} {l : List α} (h : l.length = 5) :
    ∃ a b c d e, l = [a, b, c, d, e] := by
  match l, h with
  | [a, b, c, d, e], _ => exact ⟨a, b, c, d, e, rfl⟩

theorem assemble_core {t0 : List Str} {a d : List Str} (ha : a.length = 5) (hsplit : t0 = a ++ d)
    (hlen : t0.length ≠ 4) (cov buy imd tr ti : Str) :
    assembleTitleInfo t0 cov buy imd tr ti = a ++ [cov, buy, imd, tr] ++ ti :: d := by
  subst hsplit
  unfold assembleTitleInfo
  rw [if_neg hlen]
  show pyInsert (pyInsert (pyInsert (pyInsert (pyInsert (a ++ d) 5 cov) 6 buy) 7 imd) 8 tr) 9 ti
    = a ++ [cov, buy, imd, tr] ++ ti :: d
  rw [pyInsert_of_length_eq ha]
  rw [show a ++ cov :: d = (a ++ [cov]) ++ d by simp,
    pyInsert_of_length_eq (by simp [ha])]
  rw [show (a ++ [cov]) ++ buy :: d = (a ++ [cov, buy]) ++ d by simp,
    pyInsert_of_length_eq (by simp [ha])]
  rw [show (a ++ [cov, buy]) ++ imd :: d = (a ++ [cov, buy, imd]) ++ d by simp,
    pyInsert_of_length_eq (by simp [ha])]
  rw [show (a ++ [cov, buy, imd]) ++ tr :: d = (a ++ [cov, buy, imd, tr]) ++ d by simp,
    pyInsert_of_length_eq (by simp [ha])]

/-! Lemmas connecting the code's split-based string pipeline with the spec's
description of it. -/

/-- Spec-side description of replacing every occurrence of the character `c`
by the string `new`, scanning left to right. -/
def replaceChar (c : Char) (new : Str) : Str → Str
  | [] => []
  | x :: xs => if x = c then new ++ replaceChar c new xs else x :: replaceChar c new xs

theorem dropToParen_splitFirst (t : Str) :
    (splitFirst " (".toList t = none → dropToParen t = t) ∧
    (∀ b a, splitFirst " (".toList t = some (b, a) → dropToParen t = b) := by
  induction t with
  | nil =>
    refine ⟨fun _ => rfl, fun b a h => ?_⟩
    simp [splitFirst] at h
  | cons c t ih =>
    cases t with
    | nil =>
      refine ⟨fun _ => rfl, fun b a h => ?_⟩
      rw [splitFirst, if_neg ?_] at h
      · simp [splitFirst] at h
      · rintro ⟨-, hlw⟩
        simp [leadsWith] at hlw
    | cons d rest =>
      by_cases hcd : c = ' ' ∧ d = '('
      · obtain ⟨rfl, rfl⟩ := hcd
        constructor
        · intro h
          rw [splitFirst, if_pos ⟨by simp, rfl⟩] at h
          cases h
        · intro b a h
          rw [splitFirst, if_pos ⟨by simp, rfl⟩] at h
          simp only [Option.some.injEq, Prod.mk.injEq] at h
          exact h.1 ▸ rfl
      · have hcond : ¬(" (".toList ≠ [] ∧ leadsWith " (".toList (c :: d :: rest) = true) := by
          rintro ⟨-, hlw⟩
          simp only [show " (".toList = [' ', '('] from rfl, leadsWith, Bool.and_eq_true,
            beq_iff_eq] at hlw
          exact hcd ⟨hlw.1.symm, hlw.2.1.symm⟩
        constructor
        · intro h
          rw [splitFirst, if_neg hcond] at h
          cases hrec : splitFirst " (".toList (d :: rest) with
          | none =>
            rw [dropToParen, if_neg hcd, ih.1 hrec]
          | some pr =>
            obtain ⟨b', a'⟩ := pr
            rw [hrec] at h
            simp at h
        · intro b a h
          rw [splitFirst, if_neg hcond] at h
          cases hrec : splitFirst " (".toList (d :: rest) with
          | none =>
            rw [hrec] at h
            simp at h
          | some pr =>
            obtain ⟨b', a'⟩ := pr
            rw [hrec] at h
            simp only [Option.some.injEq, Prod.mk.injEq] at h
            rw [dropToParen, if_neg hcd, ih.2 b' a' hrec]
            exact h.1

theorem pySplit_headD_dropToParen (t : Str) :
    (pySplit " (".toList t).headD [] = dropToParen t := by
  rw [pySplit_unfold]
  cases hsf : splitFirst " (".toList t with
  | none =>
    simp [(dropToParen_splitFirst t).1 hsf]
  | some pr =>
    obtain ⟨b, a⟩ := pr
    simp [(dropToParen_splitFirst t).2 b a hsf]

theorem splitFirst_single_none {c : Char} {s : Str} (h : splitFirst [c] s = none) : c ∉ s := by
  induction s with
  | nil => simp
  | cons x xs ih =>
    rw [splitFirst] at h
    split at h
    · cases h
    · rename_i hcond
      have hxc : c ≠ x := by
        intro hcc
        exact hcond ⟨by simp, by simp [leadsWith, hcc]⟩
      cases hrec : splitFirst [c] xs with
      | none =>
        simp only [List.mem_cons]
        rintro (rfl | hm)
        · exact hxc rfl
        · exact ih hrec hm
      | some pr =>
        obtain ⟨b', a'⟩ := pr
        rw [hrec] at h
        simp at h

theorem splitFirst_single_some {c : Char} {s b a : Str} (h : splitFirst [c] s = some (b, a)) :
    c ∉ b ∧ s = b ++ c :: a := by
  induction s generalizing b a with
  | nil => simp [splitFirst] at h
  | cons x xs ih =>
    rw [splitFirst] at h
    split at h
    · rename_i hcond
      obtain ⟨-, hlw⟩ := hcond
      have hcx : c = x := by simpa [leadsWith] using hlw
      simp only [Option.some.injEq, Prod.mk.injEq] at h
      obtain ⟨hb, ha⟩ := h
      constructor
      · rw [← hb]
        simp
      · rw [← hb, ← ha, hcx]
        simp
    · rename_i hcond
      have hxc : c ≠ x := by
        intro hcc
        exact hcond ⟨by simp, by simp [leadsWith, hcc]⟩
      cases hrec : splitFirst [c] xs with
      | none =>
        rw [hrec] at h
        simp at h
      | some pr =>
        obtain ⟨b', a'⟩ := pr
        rw [hrec] at h
        simp only [Option.some.injEq, Prod.mk.injEq] at h
        obtain ⟨hb, ha⟩ := h
        obtain ⟨hnotin, hs⟩ := ih hrec
        constructor
        · rw [← hb]
          simp only [List.mem_cons, not_or]
          exact ⟨fun hcc => hxc hcc, hnotin⟩
        · rw [← hb, ← ha, hs]
          simp

theorem replaceChar_not_mem {c : Char} {s : Str} (h : c ∉ s) (new : Str) :
    replaceChar c new s = s := by
  induction s with
  | nil => rfl
  | cons x xs ih =>
    have hx : x ≠ c := fun hxc => h (by simp [hxc])
    rw [replaceChar, if_neg hx, ih fun hm => h (by simp [hm])]

theorem replaceChar_append {c : Char} {b : Str} (hb : c ∉ b) (new a : Str) :
    replaceChar c new (b ++ c :: a) = b ++ new ++ replaceChar c new a := by
  induction b with
  | nil => simp [replaceChar]
  | cons x xs ih =>
    have hx : x ≠ c := fun hxc => hb (by simp [hxc])
    have hxs : c ∉ xs := fun hm => hb (by simp [hm])
    simp only [List.cons_append, replaceChar, if_neg hx, List.append_eq, ih hxs,
      List.append_assoc]

theorem pySplit_ne_nil (sep s : Str) : pySplit sep s ≠ [] := by
  rw [pySplit_unfold]
  cases splitFirst sep s with
  | none => simp
  | some pr => obtain ⟨b, a⟩ := pr; simp

theorem intercalate_cons_of_ne_nil (new b : Str) {l : List Str} (hl : l ≠ []) :
    List.intercalate new (b :: l) = b ++ new ++ List.intercalate new l := by
  cases l with
  | nil => exact absurd rfl hl
  | cons y ys => simp [List.intercalate, List.intersperse]

theorem pyReplace_char (c : Char) (new s : Str) :
    pyReplace [c] new s = replaceChar c new s := by
  suffices haux : ∀ n s, s.length ≤ n → pyReplace [c] new s = replaceChar c new s from
    haux s.length s le_rfl
  intro n
  induction n with
  | zero =>
    intro s hs
    have : s = [] := List.length_eq_zero.mp (by omega)
    subst this
    rfl
  | succ k ih =>
    intro s hs
    unfold pyReplace
    rw [pySplit_unfold]
    cases hsf : splitFirst [c] s with
    | none =>
      rw [replaceChar_not_mem (splitFirst_single_none hsf)]
      simp [List.intercalate, List.intersperse]
    | some pr =>
      obtain ⟨b, a⟩ := pr
      obtain ⟨hnb, hs'⟩ := splitFirst_single_some hsf
      have hlt : a.length < s.length := splitFirst_length hsf
      rw [intercalate_cons_of_ne_nil _ _ (pySplit_ne_nil [c] a)]
      have hrepl := ih a (by omega)
      unfold pyReplace at hrepl
      rw [hrepl, hs', replaceChar_append hnb]

/-! Concrete sample data used by witnesses and counterexamples. -/

/-- A result card titled `abc`, carrying a link and an image. -/
def cardABC : Card :=
  { hasA := true, hasImg := true, title := "abc".toList, dataCategoryID := "7".toList
    dataGlobalParentID := "77".toList, dataGlobalProductID := "777".toList
    dataProductID := "1".toList, href := "/movies/abc/1/".toList, imgSrc := "abc.jpg".toList }

/-- A result card titled `Sinners`, carrying a link and an image. -/
def cardSinners : Card :=
  { hasA := true, hasImg := true, title := "Sinners".toList, dataCategoryID := "7".toList
    dataGlobalParentID := "88".toList, dataGlobalProductID := "888".toList
    dataProductID := "123".toList, href := "/movies/Sinners-Blu-ray/123/".toList
    imgSrc := "sinners.jpg".toList }

/-- A result card with no link inside, which the extractor skips. -/
def cardNoLink : Card :=
  { hasA := false, hasImg := false, title := [], dataCategoryID := []
    dataGlobalParentID := [], dataGlobalProductID := [], dataProductID := [], href := []
    imgSrc := [] }

instance (needle hay : Str) : Decidable (substrIC needle hay) :=
  decidable_of_iff (subOf (lowerStr needle) (lowerStr hay) = true)
    (subOf_iff (lowerStr needle) (lowerStr hay))

/-- A release record as assembled from the subheading line `a | b | c | d`,
the sample URLs and the echoed title `ti`. -/
def sampleRelease : Release :=
  { studio := [], year := "a".toList, length := "b".toList, rating := "c".toList
    date := "d".toList, coverArt := "cov".toList, amazon := "buy".toList
    imdbURL := "https://www.imdb.com/title/tt1234567/".toList
    imdbID := "tt1234567".toList, trailer := "tr".toList, title := "ti".toList }

/-! The claims. -/

/-- C1, counterexample to the claim as stated: the filter is a
regular-expression search, not a substring test, so with the keyword `a.c`
the entry titled `abc` is printed even though its title does not contain
`a.c` as a case-insensitive substring. -/
theorem search_filter_substring_cex :
    searchPrinted "a.c".toList [cardABC] = [cardEntry cardABC] ∧
    ¬ substrIC "a.c".toList (cardEntry cardABC).title := by
  constructor
  · decide
  · decide

/-- C1, amended: for every keyword and every extracted result set, the
printed entries form a subset of the extractor's output and every printed
entry's title matches the keyword as a case-insensitive regular expression;
when the keyword contains no regular-expression metacharacter at all (no
character of `reMeta`, so that `re.search` degenerates to a literal search
and the modelled matcher is exact for it), every printed entry's title
moreover contains the keyword as a case-insensitive substring. -/
theorem search_filter_matches (kw : Str) (cards : List Card) :
    (∀ e ∈ searchPrinted kw cards, e ∈ (extractMovies cards).map Prod.snd) ∧
    (∀ e ∈ searchPrinted kw cards, reSearchIC kw e.title = true) ∧
    ((∀ c ∈ kw, c ∉ reMeta) → ∀ e ∈ searchPrinted kw cards, substrIC kw e.title) := by
  have hmem : ∀ e ∈ searchPrinted kw cards,
      e ∈ (extractMovies cards).map Prod.snd ∧ reSearchIC kw e.title = true := by
    intro e he
    unfold searchPrinted at he
    obtain ⟨kv, hkv, rfl⟩ := List.mem_map.mp he
    have h1 := List.mem_of_mem_filter hkv
    have h2 := (List.mem_filter.mp hkv).2
    exact ⟨List.mem_map.mpr ⟨kv, h1, rfl⟩, by simpa using h2⟩
  refine ⟨fun e he => (hmem e he).1, fun e he => (hmem e he).2, fun hmeta e he => ?_⟩
  have hdot : '.' ∉ kw := fun hin => hmeta '.' hin (by decide)
  exact reSearchIC_substr hdot (hmem e he).2

/-- Witness for C1's amended theorem at the keyword `sin` and a one-card
page titled `Sinners`. -/
theorem search_filter_matches_witness :
    ∀ e ∈ searchPrinted "sin".toList [cardSinners], substrIC "sin".toList e.title :=
  (search_filter_matches "sin".toList [cardSinners]).2.2 (by decide)

/-- C3: when the subheading line splits on `" | "` into exactly 4 parts, the
assembled record's studio is the empty string and the year, length, rating
and date fields are the 4 parts in order; when it splits into exactly 5
parts, the studio field is the first part. -/
theorem subheading_studio_fields :
    (∀ (line cov buy imd tr ti : Str) (r : Release),
      (pySplit " | ".toList line).length = 4 →
      detailRecord line cov buy imd tr ti = some r →
      r.studio = [] ∧ [r.year, r.length, r.rating, r.date] = pySplit " | ".toList line) ∧
    (∀ (line cov buy imd tr ti : Str) (r : Release),
      (pySplit " | ".toList line).length = 5 →
      detailRecord line cov buy imd tr ti = some r →
      r.studio = (pySplit " | ".toList line).headD []) := by
  constructor
  · intro line cov buy imd tr ti r h4 hrec
    obtain ⟨p0, p1, p2, p3, hp⟩ := length_eq_four h4
    unfold detailRecord at hrec
    rw [hp] at hrec
    rw [show assembleTitleInfo [p0, p1, p2, p3] cov buy imd tr ti
        = [[], p0, p1, p2, p3, cov, buy, imd, tr, ti] from rfl] at hrec
    have hf := releaseOfList_some hrec
    have e0 : some ([] : Str) = some r.studio := hf.1
    have e1 : some p0 = some r.year := hf.2.1
    have e2 : some p1 = some r.length := hf.2.2.1
    have e3 : some p2 = some r.rating := hf.2.2.2.1
    have e4 : some p3 = some r.date := hf.2.2.2.2.1
    rw [hp]
    refine ⟨(Option.some.inj e0).symm, ?_⟩
    rw [← Option.some.inj e1, ← Option.some.inj e2, ← Option.some.inj e3, ← Option.some.inj e4]
  · intro line cov buy imd tr ti r h5 hrec
    obtain ⟨p0, p1, p2, p3, p4, hp⟩ := length_eq_five h5
    unfold detailRecord at hrec
    rw [hp] at hrec
    rw [show assembleTitleInfo [p0, p1, p2, p3, p4] cov buy imd tr ti
        = [p0, p1, p2, p3, p4, cov, buy, imd, tr, ti] from rfl] at hrec
    have hf := releaseOfList_some hrec
    have e0 : some p0 = some r.studio := hf.1
    rw [hp]
    exact (Option.some.inj e0).symm

/-- Witness for C3 at the 4-part subheading line `a | b | c | d`. -/
theorem subheading_studio_fields_witness :
    sampleRelease.studio = [] ∧
    [sampleRelease.year, sampleRelease.length, sampleRelease.rating, sampleRelease.date]
      = pySplit " | ".toList "a | b | c | d".toList :=
  subheading_studio_fields.1 "a | b | c | d".toList "cov".toList "buy".toList
    "https://www.imdb.com/title/tt1234567/".toList "tr".toList "ti".toList sampleRelease
    (by decide) (by decide)

/-- C4: the detail-page URL is the base URL, the cleaned title (drop the
suffix from the first `" ("`, then replace every space by `'-'`, then every
`'+'` by `and`), the literal `-Blu-ray/`, the identifier and a final slash;
in particular `Sinners (2025)` cleans to `Sinners`. The right-hand side is
the spec-side pipeline `dropToParen`/`replaceChar`, the left-hand side the
code's split/join pipeline. -/
theorem titleURL_slug_spec :
    (∀ t id : Str, titleURL t id =
      baseMoviesURL ++
        replaceChar '+' "and".toList (replaceChar ' ' ['-'] (dropToParen t)) ++
        "-Blu-ray/".toList ++ id ++ ['/']) ∧
    titleClean "Sinners (2025)".toList = "Sinners".toList := by
  constructor
  · intro t id
    unfold titleURL titleClean
    rw [pySplit_headD_dropToParen, pyReplace_char, pyReplace_char]
  · decide

/-- C5: every assembled record's imdbID is segment 4 of its IMDB URL split
on `'/'`, and for `https://www.imdb.com/title/tt1234567/` that segment is
`tt1234567`. -/
theorem imdbID_extraction :
    (∀ (l : List Str) (r : Release), releaseOfList l = some r →
      (pySplit ['/'] r.imdbURL)[4]? = some r.imdbID) ∧
    (pySplit ['/'] "https://www.imdb.com/title/tt1234567/".toList)[4]?
      = some "tt1234567".toList := by
  constructor
  · intro l r h
    exact (releaseOfList_some h).2.2.2.2.2.2.2.2.1
  · decide

/-- Witness for C5 at a concrete assembled record. -/
theorem imdbID_extraction_witness :
    (pySplit ['/'] sampleRelease.imdbURL)[4]? = some sampleRelease.imdbID :=
  imdbID_extraction.1
    [[], "a".toList, "b".toList, "c".toList, "d".toList, "cov".toList, "buy".toList,
      "https://www.imdb.com/title/tt1234567/".toList, "tr".toList, "ti".toList]
    sampleRelease (by decide)

theorem ratings_3d_dict (t1 t2 t3 t4 t5 t6 t7 t8 t9 t10 t11 t12 t13 t14 : Str)
    (rest : List Str) :
    ratings ("3D".toList :: t1 :: t2 :: t3 :: t4 :: t5 :: t6 :: t7 :: t8 :: t9 :: t10 :: t11 ::
        t12 :: t13 :: t14 :: rest)
      = some (pyDict [("3D".toList, t2), (t3, t5), (t6, t8), (t9, t11), (t12, t14)]) := by
  simp [ratings, pairAt]

theorem ratings_4k_dict (t1 t2 t3 t4 t5 t6 t7 t8 t9 t10 t11 : Str) (rest : List Str) :
    ratings ("Video 4k".toList :: t1 :: t2 :: t3 :: t4 :: t5 :: t6 :: t7 :: t8 :: t9 :: t10 ::
        t11 :: rest)
      = some (pyDict [("Video 4k".toList, t2), (t3, t5), (t6, t8), (t9, t11)]) := by
  simp [ratings, pairAt]

theorem ratings_default_dict {t0 : Str} (h3 : t0 ≠ "3D".toList) (h4 : t0 ≠ "Video 4k".toList)
    (t1 t2 t3 t4 t5 t6 t7 t8 : Str) (rest : List Str) :
    ratings (t0 :: t1 :: t2 :: t3 :: t4 :: t5 :: t6 :: t7 :: t8 :: rest)
      = some (pyDict [(t0, t2), (t3, t5), (t6, t8)]) := by
  unfold ratings
  rw [show ((t0 :: t1 :: t2 :: t3 :: t4 :: t5 :: t6 :: t7 :: t8 :: rest)[0]?) = some t0 from rfl,
    Option.bind_eq_bind, Option.some_bind, if_neg h3, if_neg h4]
  simp [pairAt]

/-- C2, counterexample to the claim as stated: a 15-cell table whose first
and fourth cells both read `3D` feeds two pairs with the same key into the
dict literal, so the dict keeps only 4 pairs, not 5. -/
theorem ratings_duplicate_key_cex :
    ratings (["3D", "k", "x", "3D", "k", "y", "c", "k", "z", "d", "k", "w", "e", "k", "u"].map
        String.toList)
      = some [("3D".toList, "y".toList), ("c".toList, "z".toList), ("d".toList, "w".toList),
          ("e".toList, "u".toList)] ∧
    [("3D".toList, "y".toList), ("c".toList, "z".toList), ("d".toList, "w".toList),
        ("e".toList, "u".toList)].length = 4 := by
  constructor
  · decide
  · decide

/-- C2, amended: on a table with enough cells whose category cells are
pairwise distinct, a first cell reading `3D` yields exactly the 5 pairs at
cell offsets (0,2)(3,5)(6,8)(9,11)(12,14), `Video 4k` exactly the 4 pairs at
(0,2)(3,5)(6,8)(9,11), and any other first cell exactly the 3 pairs at
(0,2)(3,5)(6,8); with a repeated category cell the dict literal collapses
the repeated key. -/
theorem ratings_variant_pairs :
    (∀ (t1 t2 t3 t4 t5 t6 t7 t8 t9 t10 t11 t12 t13 t14 : Str) (rest : List Str),
      ["3D".toList, t3, t6, t9, t12].Nodup →
      ratings ("3D".toList :: t1 :: t2 :: t3 :: t4 :: t5 :: t6 :: t7 :: t8 :: t9 :: t10 :: t11 ::
          t12 :: t13 :: t14 :: rest)
        = some [("3D".toList, t2), (t3, t5), (t6, t8), (t9, t11), (t12, t14)]) ∧
    (∀ (t1 t2 t3 t4 t5 t6 t7 t8 t9 t10 t11 : Str) (rest : List Str),
      ["Video 4k".toList, t3, t6, t9].Nodup →
      ratings ("Video 4k".toList :: t1 :: t2 :: t3 :: t4 :: t5 :: t6 :: t7 :: t8 :: t9 :: t10 ::
          t11 :: rest)
        = some [("Video 4k".toList, t2), (t3, t5), (t6, t8), (t9, t11)]) ∧
    (∀ (t0 t1 t2 t3 t4 t5 t6 t7 t8 : Str) (rest : List Str),
      t0 ≠ "3D".toList → t0 ≠ "Video 4k".toList → [t0, t3, t6].Nodup →
      ratings (t0 :: t1 :: t2 :: t3 :: t4 :: t5 :: t6 :: t7 :: t8 :: rest)
        = some [(t0, t2), (t3, t5), (t6, t8)]) := by
  refine ⟨fun t1 t2 t3 t4 t5 t6 t7 t8 t9 t10 t11 t12 t13 t14 rest hnd => ?_,
    fun t1 t2 t3 t4 t5 t6 t7 t8 t9 t10 t11 rest hnd => ?_,
    fun t0 t1 t2 t3 t4 t5 t6 t7 t8 rest h3 h4 hnd => ?_⟩
  · rw [ratings_3d_dict, pyDict_of_nodup (by simpa using hnd)]
  · rw [ratings_4k_dict, pyDict_of_nodup (by simpa using hnd)]
  · rw [ratings_default_dict h3 h4, pyDict_of_nodup (by simpa using hnd)]

/-- Witness for C2's amended theorem on a concrete 15-cell 3D table with
pairwise distinct category cells. -/
theorem ratings_variant_pairs_witness :
    ratings (["3D", "k", "x", "a", "k", "y", "c", "k", "z", "d", "k", "w", "e", "k", "u"].map
        String.toList)
      = some [("3D".toList, "x".toList), ("a".toList, "y".toList), ("c".toList, "z".toList),
          ("d".toList, "w".toList), ("e".toList, "u".toList)] :=
  ratings_variant_pairs.1 "k".toList "x".toList "a".toList "k".toList "y".toList "c".toList
    "k".toList "z".toList "d".toList "k".toList "w".toList "e".toList "k".toList "u".toList []
    (by decide)

/-- C6: a table with fewer cells than the selected variant reads (15 for
`3D`, 12 for `Video 4k`, 9 otherwise) makes extraction fail — the model
returns `none`, the Python code raises `IndexError` — rather than produce a
partial mapping. -/
theorem ratings_short_table (td : List Str) (h : td.length < requiredCells td) :
    ratings td = none := by
  cases hr : ratings td with
  | none => rfl
  | some m =>
    exfalso
    unfold ratings at hr
    simp only [bind, Option.bind_eq_some] at hr
    obtain ⟨c0, hc0, hr⟩ := hr
    have hreq : requiredCells td = if c0 = "3D".toList then 15
        else if c0 = "Video 4k".toList then 12 else 9 := by
      simp [requiredCells, hc0]
    by_cases h3 : c0 = "3D".toList
    · rw [if_pos h3] at hr
      simp only [pairAt, bind, Option.bind_eq_some, Option.pure_def, Option.some.injEq] at hr
      obtain ⟨p1, ⟨k1, hk1, v1, hv1, hp1⟩, p2, ⟨k2, hk2, v2, hv2, hp2⟩, p3, ⟨k3, hk3, v3, hv3,
        hp3⟩, p4, ⟨k4, hk4, v4, hv4, hp4⟩, p5, ⟨k5, hk5, v5, hv5, hp5⟩, hm⟩ := hr
      have h14 : 14 < td.length := by
        by_contra hle
        rw [List.getElem?_eq_none (by omega)] at hv5
        cases hv5
      rw [hreq, if_pos h3] at h
      omega
    · rw [if_neg h3] at hr
      by_cases h4 : c0 = "Video 4k".toList
      · rw [if_pos h4] at hr
        simp only [pairAt, bind, Option.bind_eq_some, Option.pure_def, Option.some.injEq] at hr
        obtain ⟨p1, ⟨k1, hk1, v1, hv1, hp1⟩, p2, ⟨k2, hk2, v2, hv2, hp2⟩, p3, ⟨k3, hk3, v3, hv3,
          hp3⟩, p4, ⟨k4, hk4, v4, hv4, hp4⟩, hm⟩ := hr
        have h11 : 11 < td.length := by
          by_contra hle
          rw [List.getElem?_eq_none (by omega)] at hv4
          cases hv4
        rw [hreq, if_neg h3, if_pos h4] at h
        omega
      · rw [if_neg h4] at hr
        simp only [pairAt, bind, Option.bind_eq_some, Option.pure_def, Option.some.injEq] at hr
        obtain ⟨p1, ⟨k1, hk1, v1, hv1, hp1⟩, p2, ⟨k2, hk2, v2, hv2, hp2⟩, p3, ⟨k3, hk3, v3, hv3,
          hp3⟩, hm⟩ := hr
        have h8 : 8 < td.length := by
          by_contra hle
          rw [List.getElem?_eq_none (by omega)] at hv3
          cases hv3
        rw [hreq, if_neg h3, if_neg h4] at h
        omega

/-- Witness for C6 at a one-cell table reading `3D`, which the 3D variant
(15 cells needed) cannot serve. -/
theorem ratings_short_table_witness : ratings ["3D".toList] = none :=
  ratings_short_table ["3D".toList] (by decide)

/-- C7: when the extractor finds no qualifying entry, the search tool prints
the header and the no-results message and no entry block. -/
theorem search_no_results (kw : Str) (cards : List Card) (h : extractMovies cards = []) :
    searchOutput kw cards = [OutLine.header, OutLine.noResults] := by
  simp [searchOutput, h]

/-- Witness for C7 at a page whose only card carries no link. -/
theorem search_no_results_witness :
    searchOutput "sin".toList [cardNoLink] = [OutLine.header, OutLine.noResults] :=
  search_no_results "sin".toList [cardNoLink] (by decide)

/-- C8: whenever the detail record assembles, its title field is the echoed
user-supplied title argument, and that title sits at position 9 of the
assembled positional sequence. -/
theorem echoed_title (line cov buy imd tr ti : Str) (r : Release)
    (h : detailRecord line cov buy imd tr ti = some r) :
    r.title = ti ∧
    (assembleTitleInfo (pySplit " | ".toList line) cov buy imd tr ti)[9]? = some ti := by
  have h9 : (assembleTitleInfo (pySplit " | ".toList line) cov buy imd tr ti)[9]?
      = some r.title :=
    (releaseOfList_some h).2.2.2.2.2.2.2.2.2.2
  have hsel : (assembleTitleInfo (pySplit " | ".toList line) cov buy imd tr ti)[9]? =
      if 9 ≤ (pyInsert (pyInsert (pyInsert (pyInsert
            (if (pySplit " | ".toList line).length = 4 then
              pyInsert (pySplit " | ".toList line) 0 [] else pySplit " | ".toList line)
            5 cov) 6 buy) 7 imd) 8 tr).length
      then some ti else none :=
    pyInsert_getElem_self _ 9 ti
  generalize hX : (pyInsert (pyInsert (pyInsert (pyInsert
      (if (pySplit " | ".toList line).length = 4 then
        pyInsert (pySplit " | ".toList line) 0 [] else pySplit " | ".toList line)
      5 cov) 6 buy) 7 imd) 8 tr) = X at hsel
  rw [hsel] at h9
  by_cases hle : 9 ≤ X.length
  · rw [if_pos hle] at h9
    refine ⟨(Option.some.inj h9).symm, ?_⟩
    rw [hsel, if_pos hle]
  · rw [if_neg hle] at h9
    cases h9

/-- Witness for C8 at the sample invocation with echoed title `ti`. -/
theorem echoed_title_witness :
    sampleRelease.title = "ti".toList ∧
    (assembleTitleInfo (pySplit " | ".toList "a | b | c | d".toList) "cov".toList "buy".toList
      "https://www.imdb.com/title/tt1234567/".toList "tr".toList "ti".toList)[9]?
      = some "ti".toList :=
  echoed_title "a | b | c | d".toList "cov".toList "buy".toList
    "https://www.imdb.com/title/tt1234567/".toList "tr".toList "ti".toList sampleRelease
    (by decide)

/-- C9: when the extractor finds entries but the filter matches none of
their titles, only the header is printed: no entry block and no no-results
message. -/
theorem search_header_only (kw : Str) (cards : List Card)
    (hne : extractMovies cards ≠ [])
    (hmiss : ∀ kv ∈ extractMovies cards, reSearchIC kw kv.2.title = false) :
    searchOutput kw cards = [OutLine.header] := by
  have hfil : (extractMovies cards).filter (fun kv => reSearchIC kw kv.2.title) = [] := by
    rw [List.filter_eq_nil_iff]
    intro kv hkv
    simp [hmiss kv hkv]
  simp [searchOutput, if_neg hne, hfil]

/-- Witness for C9 at the keyword `zzz` against a one-entry page titled
`abc`. -/
theorem search_header_only_witness :
    searchOutput "zzz".toList [cardABC] = [OutLine.header] :=
  search_header_only "zzz".toList [cardABC] (by decide) (by decide)

/-- C10, counterexample to the claim as stated: a subheading line with 6
parts does not guarantee successful assembly — with an IMDB URL of fewer
than 5 slash-separated segments the imdbID derivation fails and the record
is not assembled. -/
theorem extra_parts_cex :
    (pySplit " | ".toList "a | b | c | d | e | f".toList).length = 6 ∧
    detailRecord "a | b | c | d | e | f".toList "cov".toList "buy".toList "x".toList
      "tr".toList "ti".toList = none := by
  constructor
  · decide
  · decide

/-- C10, amended: when the subheading line splits into more than 5 parts and
the IMDB URL yields an index-4 segment, assembly succeeds, fields 0-4 are
the first 5 parts, fields 5-9 are the four URLs and the echoed title, and
the extra parts sit past position 9 of the assembled sequence, ignored by
the record constructor. -/
theorem extra_parts_assembly (line cov buy imd tr ti iid : Str)
    (h5 : 5 < (pySplit " | ".toList line).length)
    (himdb : (pySplit ['/'] imd)[4]? = some iid) :
    ∃ r, detailRecord line cov buy imd tr ti = some r ∧
      [r.studio, r.year, r.length, r.rating, r.date] = (pySplit " | ".toList line).take 5 ∧
      r.coverArt = cov ∧ r.amazon = buy ∧ r.imdbURL = imd ∧ r.imdbID = iid ∧
      r.trailer = tr ∧ r.title = ti ∧
      (assembleTitleInfo (pySplit " | ".toList line) cov buy imd tr ti).drop 10 =
        (pySplit " | ".toList line).drop 5 := by
  set parts := pySplit " | ".toList line with hparts
  have htl : (parts.take 5).length = 5 := by
    rw [List.length_take]
    omega
  obtain ⟨p0, p1, p2, p3, p4, hp⟩ := length_eq_five htl
  have hsplit : parts = [p0, p1, p2, p3, p4] ++ parts.drop 5 := by
    rw [← hp]
    exact (List.take_append_drop 5 parts).symm
  have hasm := @assemble_core parts [p0, p1, p2, p3, p4] (parts.drop 5)
    (by simp) hsplit (by omega) cov buy imd tr ti
  refine ⟨{ studio := p0, year := p1, length := p2, rating := p3, date := p4, coverArt := cov
            amazon := buy, imdbURL := imd, imdbID := iid, trailer := tr, title := ti },
    ?_, ?_, rfl, rfl, rfl, rfl, rfl, rfl, ?_⟩
  · unfold detailRecord
    rw [← hparts, hasm]
    exact releaseOfList_cons p0 p1 p2 p3 p4 cov buy imd tr ti (parts.drop 5) himdb
  · exact hp.symm
  · rw [hasm]
    rfl

/-- Witness for C10's amended theorem at a 6-part subheading line and a full
IMDB URL. -/
theorem extra_parts_assembly_witness :
    ∃ r, detailRecord "a | b | c | d | e | f".toList "cov".toList "buy".toList
        "https://www.imdb.com/title/tt1234567/".toList "tr".toList "ti".toList = some r ∧
      [r.studio, r.year, r.length, r.rating, r.date]
        = (pySplit " | ".toList "a | b | c | d | e | f".toList).take 5 ∧
      r.coverArt = "cov".toList ∧ r.amazon = "buy".toList ∧
      r.imdbURL = "https://www.imdb.com/title/tt1234567/".toList ∧
      r.imdbID = "tt1234567".toList ∧ r.trailer = "tr".toList ∧ r.title = "ti".toList ∧
      (assembleTitleInfo (pySplit " | ".toList "a | b | c | d | e | f".toList) "cov".toList
          "buy".toList "https://www.imdb.com/title/tt1234567/".toList "tr".toList
          "ti".toList).drop 10 =
        (pySplit " | ".toList "a | b | c | d | e | f".toList).drop 5 :=
  extra_parts_assembly "a | b | c | d | e | f".toList "cov".toList "buy".toList
    "https://www.imdb.com/title/tt1234567/".toList "tr".toList "ti".toList "tt1234567".toList
    (by decide) (by decide)

end CollectZ
